import Mathlib

/-!
Verification of the documentation learning and retrieval engine
(claw_learn.py / claw_ask.py): shallow embedding of the tokenizer,
TF-IDF index builder, query engine, snippet extractor, answer
synthesizer, markdown and options parsers, and the persisted-record
store, together with proofs of the specified properties.

Text is modelled as `List Char` (Python `str`), floating-point values
as `ℚ`, with `math.log` and `math.sqrt` passed as explicit function
parameters (the theorems assume only the facts about them that the
real logarithm and square root satisfy).
-/

set_option maxHeartbeats 1000000

/-- Python `str` is modelled as a list of characters. -/
abbrev Str := List Char

/-- Python `str.lower()` (ASCII semantics, as exercised by the scripts). -/
def lowerStr (s : Str) : Str := s.map Char.toLower

/-- Python `str.lstrip()` with no argument: drop leading whitespace. -/
def trimLeft (s : Str) : Str := s.dropWhile Char.isWhitespace

/-- Python `str.strip()` with no argument: drop whitespace on both ends. -/
def trimStr (s : Str) : Str := ((trimLeft s).reverse.dropWhile Char.isWhitespace).reverse

/-- Python `str.split(sep)` for a single-character separator (used as `split('\n')`). -/
def splitOnChar (sep : Char) : Str → List Str
  | [] => [[]]
  | c :: rest =>
    if c = sep then [] :: splitOnChar sep rest
    else
      match splitOnChar sep rest with
      | [] => [[c]]
      | s :: ss => (c :: s) :: ss

theorem length_dropWhile_le {α : Type} (p : α → Bool) (l : List α) :
    (l.dropWhile p).length ≤ l.length := by
  induction l with
  | nil => simp [List.dropWhile]
  | cons a l ih =>
    by_cases h : p a
    · simp only [List.dropWhile, h]
      exact Nat.le_succ_of_le ih
    · simp [List.dropWhile, h]

/-- Python `str.split()` with no argument: split on whitespace runs, dropping empties. -/
def splitWs : Str → List Str
  | [] => []
  | c :: rest =>
    if c.isWhitespace then splitWs rest
    else (c :: rest.takeWhile (fun d => ¬ d.isWhitespace)) ::
      splitWs (rest.dropWhile (fun d => ¬ d.isWhitespace))
termination_by s => s.length
decreasing_by
all_goals simp
exact Nat.lt_succ_of_le (length_dropWhile_le _ _)

/-- Python `a.startswith(b)` / list prefix test, by structural recursion. -/
def startsWithStr : Str → Str → Bool
  | _, [] => true
  | [], _ :: _ => false
  | a :: as, b :: bs => a = b && startsWithStr as bs

/-- Python `sub in s` substring test: `containsStr hay needle` holds when
`needle` occurs contiguously inside `hay`. -/
def containsStr (hay needle : Str) : Bool :=
  match hay with
  | [] => needle.isEmpty
  | _ :: rest => startsWithStr hay needle || containsStr rest needle

/-- Python `'\n'.join(lines)` and friends. -/
def joinSep (sep : Str) (ls : List Str) : Str := List.intercalate sep ls

/-- First-occurrence deduplication: the key order of a Python `Counter`/`dict`
built by repeated insertion. -/
def dedupFirst : List Str → List Str
  | [] => []
  | x :: xs => x :: dedupFirst (xs.filter (fun y => y ≠ x))
termination_by l => l.length
decreasing_by
exact Nat.lt_succ_of_le (List.length_filter_le _ _)

/-- Lookup in an association list with default (Python `dict.get(k, d)`). -/
def lookupD (l : List (Str × ℚ)) (k : Str) (d : ℚ) : ℚ :=
  match l with
  | [] => d
  | (k1, v) :: rest => if k1 = k then v else lookupD rest k d

/-- Python `dict[k] = v`: overwrite in place if the key exists (keeping its
insertion position), otherwise append at the end. -/
def dictInsert {β : Type} (l : List (Str × β)) (k : Str) (v : β) : List (Str × β) :=
  if l.any (fun p => p.1 = k) then l.map (fun p => if p.1 = k then (k, v) else p)
  else l ++ [(k, v)]

/-- Tokenizer (`SemanticSearcher._tokenize`): lowercase, replace every
character that is not alphanumeric, whitespace, hyphen, underscore or
period by a space, split on whitespace, and drop tokens of length at most
one and purely numeric tokens. -/
def tokenize (text : Str) : List Str :=
  let lowered := lowerStr text
  let replaced := lowered.map (fun c =>
    if c.isAlphanum || c.isWhitespace || c = '-' || c = '_' || c = '.' then c else ' ')
  let tokens := splitWs replaced
  tokens.filter (fun t => 1 < t.length ∧ ¬ (t.all Char.isDigit))

/-- One indexable unit as stored by `SemanticSearcher.add_document`: the
dictionary with keys id, title, content, source, section, metadata, tokens. -/
structure IndexedDoc where
  id : Str
  title : Str
  content : Str
  source : Str
  sectionName : Option Str
  metadata : List (Str × Str)
  tokens : List Str
deriving DecidableEq

/-- Number of occurrences of a token (`collections.Counter` entry). -/
def countTok (tokens : List Str) (t : Str) : ℕ :=
  (tokens.filter (fun u => u = t)).length

/-- `SemanticSearcher._compute_tf`: term → count / total, with
`total = len(tokens) or 1`. Keys in first-occurrence order as in `Counter`. -/
def computeTF (tokens : List Str) : List (Str × ℚ) :=
  let total : ℚ := if tokens.length = 0 then 1 else (tokens.length : ℚ)
  (dedupFirst tokens).map (fun t => (t, (countTok tokens t : ℚ) / total))

/-- `n_docs = len(all_tokens) or 1` in `SemanticSearcher._build_vocab`. -/
def nDocs (docs : List IndexedDoc) : ℕ :=
  if docs.length = 0 then 1 else docs.length

/-- Document frequency of a term: the number of indexed units whose token
set contains it (the `doc_freq` counter of `_build_vocab`). -/
def docFreq (docs : List IndexedDoc) (t : Str) : ℕ :=
  (docs.filter (fun d => t ∈ d.tokens)).length

/-- All distinct terms over the corpus, in first appearance order (key set
of the `doc_freq` counter; the derived `vocab` term→integer map of
`_build_vocab` is never consulted by `search`, so it is not modelled). -/
def allTerms (docs : List IndexedDoc) : List Str :=
  dedupFirst (docs.flatMap (fun d => dedupFirst d.tokens))

/-- The IDF formula of `_build_vocab`: `log(n_docs / (freq + 1)) + 1`. -/
def idfValue (log : ℚ → ℚ) (n df : ℕ) : ℚ :=
  log ((n : ℚ) / ((df : ℚ) + 1)) + 1

/-- The IDF table `self.idf` of a built index. -/
def idfTable (log : ℚ → ℚ) (docs : List IndexedDoc) : List (Str × ℚ) :=
  (allTerms docs).map (fun t => (t, idfValue log (nDocs docs) (docFreq docs t)))

/-- `SemanticSearcher._vectorize`: TF-IDF weighting of a term-frequency map,
with `self.idf.get(term, 1.0)` for terms missing from the table. -/
def vectorize (log : ℚ → ℚ) (docs : List IndexedDoc) (tf : List (Str × ℚ)) : List (Str × ℚ) :=
  tf.map (fun p => (p.1, p.2 * lookupD (idfTable log docs) p.1 1))

/-- The TF-IDF vector of one indexed unit (one entry of `self.doc_vectors`). -/
def docVector (log : ℚ → ℚ) (docs : List IndexedDoc) (d : IndexedDoc) : List (Str × ℚ) :=
  vectorize log docs (computeTF d.tokens)

/-- Union of the key sets of two sparse vectors (`set(vec1) | set(vec2)`). -/
def unionKeys (v1 v2 : List (Str × ℚ)) : List Str :=
  dedupFirst (v1.map Prod.fst ++ v2.map Prod.fst)

/-- Sum of `v1.get(t,0) * v2.get(t,0)` over a key list (the `dot_product`
accumulator of `_cosine_similarity`). -/
def dotOver (keys : List Str) (v1 v2 : List (Str × ℚ)) : ℚ :=
  (keys.map (fun t => lookupD v1 t 0 * lookupD v2 t 0)).sum

/-- `SemanticSearcher._cosine_similarity`: dot product over the union of the
key sets divided by the product of the Euclidean norms, and exactly 0 when
either squared norm is 0. `sqrt` abstracts `math.sqrt`. -/
def cosineSim (sqrt : ℚ → ℚ) (v1 v2 : List (Str × ℚ)) : ℚ :=
  let keys := unionKeys v1 v2
  let dot := dotOver keys v1 v2
  let n1 := dotOver keys v1 v1
  let n2 := dotOver keys v2 v2
  if n1 = 0 ∨ n2 = 0 then 0 else dot / (sqrt n1 * sqrt n2)

/-- The fixed stop-word set removed from query terms before boosting. -/
def stopWords : List Str :=
  ["how".toList, "do".toList, "i".toList, "what".toList, "are".toList,
   "the".toList, "to".toList, "a".toList, "an".toList, "is".toList,
   "it".toList, "with".toList, "explain".toList]

/-- MIN_SIMILARITY = 0.05. -/
def minSimilarity : ℚ := 1/20

/-- The boosted score of one unit in `SemanticSearcher.search`: raw cosine
similarity, then the multiplicative boosts ×1.5 (key term in section name),
×1.3 (key term in title), ×1.15 (description/overview section), ×1.1
(code section and the query mentions example/how), in source order. -/
def scoreDoc (sqrt : ℚ → ℚ) (queryVector : List (Str × ℚ)) (queryLower : Str)
    (keyTerms : List Str) (d : IndexedDoc) (dv : List (Str × ℚ)) : ℚ :=
  let sim0 := cosineSim sqrt queryVector dv
  let sectionLower := lowerStr (d.sectionName.getD [])
  let titleLower := lowerStr d.title
  let sim1 := if keyTerms.any (fun t => containsStr sectionLower t) then sim0 * (3/2) else sim0
  let sim2 := if keyTerms.any (fun t => containsStr titleLower t) then sim1 * (13/10) else sim1
  let sim3 := if containsStr sectionLower "description".toList
                 || containsStr sectionLower "overview".toList then sim2 * (23/20) else sim2
  if containsStr sectionLower "code".toList
     && (containsStr queryLower "example".toList || containsStr queryLower "how".toList)
  then sim3 * (11/10) else sim3

/-- The `scores` list built by `SemanticSearcher.search` before sorting:
each indexed unit (paired with its insertion index) whose boosted score
reaches MIN_SIMILARITY, in insertion order. -/
def searchScores (log sqrt : ℚ → ℚ) (docs : List IndexedDoc) (query : Str) :
    List ((ℕ × IndexedDoc) × ℚ) :=
  let queryVector := vectorize log docs (computeTF (tokenize query))
  let queryLower := lowerStr query
  let keyTerms := (splitWs queryLower).filter (fun t => t ∉ stopWords)
  docs.enum.filterMap (fun p =>
    let sim := scoreDoc sqrt queryVector queryLower keyTerms p.2 (docVector log docs p.2)
    if minSimilarity ≤ sim then some ((p.1, p.2), sim) else none)

/-- Stable insertion into a descending-sorted list: the new element goes in
front of the first strictly smaller key, after any equal keys already
present that came earlier in the input. -/
def insertDesc {α K : Type} [LinearOrder K] (x : α × K) : List (α × K) → List (α × K)
  | [] => [x]
  | y :: ys => if y.2 ≤ x.2 then x :: y :: ys else y :: insertDesc x ys

/-- Stable descending sort by key: the behaviour of Python
`list.sort(key=..., reverse=True)`, which is stable. -/
def sortDesc {α K : Type} [LinearOrder K] : List (α × K) → List (α × K)
  | [] => []
  | x :: xs => insertDesc x (sortDesc xs)

/-- `SemanticSearcher.search` with the insertion index of each unit kept
alongside: sort the thresholded scores by descending score (stable) and
truncate to `top_k`. -/
def searchRanked (log sqrt : ℚ → ℚ) (docs : List IndexedDoc) (query : Str) (topK : ℕ) :
    List ((ℕ × IndexedDoc) × ℚ) :=
  (sortDesc (searchScores log sqrt docs query)).take topK

/-- `SemanticSearcher.search`: the returned list of (unit, score) pairs. -/
def search (log sqrt : ℚ → ℚ) (docs : List IndexedDoc) (query : Str) (topK : ℕ) :
    List (IndexedDoc × ℚ) :=
  (searchRanked log sqrt docs query topK).map (fun p => (p.1.2, p.2))

/-- One fenced code block captured by the markdown parser. -/
structure CodeBlock where
  language : Str
  content : Str
deriving DecidableEq

/-- One extracted command record (`{"command": ..., "context": "example"}`). -/
structure CmdRecord where
  command : Str
  context : Str
deriving DecidableEq

/-- One option record extracted from an OPTIONS section. -/
structure OptRecord where
  flag : Str
  argument : Str
  description : Str
deriving DecidableEq

/-- A persisted learned-document record, as read back from one JSON file by
`load_learned_docs` (fields `name`, `title`, `source`, `description`,
`sections`, `code_blocks`; `sections` keeps dict insertion order). -/
structure DocRecord where
  name : Str
  title : Str
  source : Str
  description : Str
  sections : List (Str × Str)
  codeBlocks : List CodeBlock
deriving DecidableEq

/-- The indexable unit built from a record's description field
(identifier `name:description`, section label "Description"). -/
def descUnit (r : DocRecord) : IndexedDoc :=
  { id := r.name ++ ":description".toList, title := r.title,
    content := r.description, source := r.source,
    sectionName := some "Description".toList, metadata := [],
    tokens := tokenize r.description }

/-- The indexable unit built from one named section
(identifier `name:<section>`). -/
def secUnit (r : DocRecord) (p : Str × Str) : IndexedDoc :=
  { id := r.name ++ ":".toList ++ p.1, title := r.title,
    content := p.2, source := r.source,
    sectionName := some p.1, metadata := [],
    tokens := tokenize p.2 }

/-- The indexable unit built from the i-th code block (identifier
`name:code:<i>`, section label `Code Example <i+1>`, content prefixed by
the declared language when present). -/
def codeUnit (r : DocRecord) (q : ℕ × CodeBlock) : IndexedDoc :=
  { id := r.name ++ ":code:".toList ++ (Nat.repr q.1).toList, title := r.title,
    content := if q.2.language ≠ [] then
      q.2.language ++ " code example:\n".toList ++ q.2.content else q.2.content,
    source := r.source,
    sectionName := some ("Code Example ".toList ++ (Nat.repr (q.1 + 1)).toList),
    metadata := [],
    tokens := tokenize (if q.2.language ≠ [] then
      q.2.language ++ " code example:\n".toList ++ q.2.content else q.2.content) }

/-- The indexable units one well-formed persisted record contributes, in the
order `load_learned_docs` adds them: the description (if non-empty), each
section with non-blank text, then each non-empty code block. Identifiers are
`name:description`, `name:<section>` and `name:code:<i>`. -/
def unitsOfRecord (r : DocRecord) : List IndexedDoc :=
  (if r.description ≠ [] then [descUnit r] else []) ++
  r.sections.filterMap (fun p => if trimStr p.2 ≠ [] then some (secUnit r p) else none) ++
  r.codeBlocks.enum.filterMap (fun q => if q.2.content ≠ [] then some (codeUnit r q) else none)

/-- One JSON file as seen by `load_learned_docs`. The per-file try/except
is not atomic: the loader adds the description unit, then the section
units, then the code-block units, and an exception raised part-way (a
JSON parse error before anything is added, `sections` not being a mapping
after the description unit, `code_blocks` not being a list after the
section units, or a non-string code-block content inside the last loop)
is only caught afterwards, leaving the units already added in the index.
`good r` is a record that loads completely; `malformed r n` is a record
whose load raises after the first `n` unit additions (with `r` holding
the fields as far as they were read; `n = 0` covers a file whose JSON
does not parse at all). -/
inductive PersistedFile where
  | good : DocRecord → PersistedFile
  | malformed : DocRecord → ℕ → PersistedFile

/-- The units one file leaves in the index: all of them for a record that
loads completely, and the prefix added before the exception for a
malformed one. -/
def fileUnits : PersistedFile → List IndexedDoc
  | PersistedFile.good r => unitsOfRecord r
  | PersistedFile.malformed r n => (unitsOfRecord r).take n

/-- The corpus built by `load_learned_docs` from a directory of JSON files:
each file is loaded inside its own try/except, so a failure is confined to
the offending file (a warning is printed) and the loop continues with the
next file. -/
def loadAll (files : List PersistedFile) : List IndexedDoc :=
  files.foldl (fun acc f => acc ++ fileUnits f) []

/-- `DocLearner.store`: write the record to `<name>.json`, overwriting any
prior record for that name. The store directory is modelled as an
association list keyed by name. -/
def storeDoc (st : List (Str × DocRecord)) (d : DocRecord) : List (Str × DocRecord) :=
  dictInsert st d.name d

/-- `DocLearner.show`: exact file-name lookup first, otherwise the first
stored record whose name contains the query as a substring
(case-insensitive partial match). -/
def showDoc (st : List (Str × DocRecord)) (name : Str) : Option DocRecord :=
  match st.find? (fun p => p.1 = name) with
  | some p => some p.2
  | none =>
    match st.find? (fun p => containsStr (lowerStr p.1) (lowerStr name)) with
    | some p => some p.2
    | none => none

/-- The parsed markdown document built by `DocLearner.parse_markdown`. -/
structure MarkdownDoc where
  source : Str
  title : Str
  description : Str
  sections : List (Str × Str)
  commands : List CmdRecord
  codeBlocks : List CodeBlock
deriving DecidableEq

/-- The loop state of `parse_markdown`. -/
structure MDState where
  title : Str
  sections : List (Str × Str)
  commands : List CmdRecord
  codeBlocks : List CodeBlock
  currentSection : Option Str
  buffer : List Str
  inCode : Bool
  codeBuffer : List Str
  codeLang : Str
deriving DecidableEq

/-- The initial `parse_markdown` state. -/
def mdInit : MDState :=
  { title := [], sections := [], commands := [], codeBlocks := [],
    currentSection := none, buffer := [], inCode := false,
    codeBuffer := [], codeLang := [] }

/-- The regex `^#{2,4}\s+(.+)$` of `parse_markdown`: between two and four
leading hash marks followed by at least one whitespace character and at
least one further character; the captured group is returned stripped. -/
def mdSectionHeader (line : Str) : Option Str :=
  let hashes := line.takeWhile (fun c => c = '#')
  let rest := line.dropWhile (fun c => c = '#')
  if 2 ≤ hashes.length ∧ hashes.length ≤ 4 ∧ 2 ≤ rest.length ∧
      (rest.headD ' ').isWhitespace then
    some (trimStr rest)
  else none

/-- The command prefixes recognised by `_extract_commands_from_code`. -/
def cmdStarts : List Str :=
  ["$ ".toList, "./".toList, "python".toList, "npm".toList, "pip".toList,
   "git".toList, "docker".toList, "make".toList, "cargo".toList,
   "go ".toList, "curl".toList, "wget".toList]

/-- Python `line.lstrip('$ ')`: strip any leading dollar signs and spaces. -/
def stripDollar (s : Str) : Str := s.dropWhile (fun c => c = '$' || c = ' ')

/-- `DocLearner._extract_commands_from_code`: a stripped, non-empty,
non-comment line that starts with one of the recognised command prefixes
becomes a command record with context "example". -/
def extractCommandsFromCode (code : Str) : List CmdRecord :=
  (splitOnChar '\n' code).foldl (fun acc line =>
    let ls := trimStr line
    if ls ≠ [] ∧ ¬ (startsWithStr ls "#".toList) then
      if cmdStarts.any (fun p => startsWithStr ls p) then
        acc ++ [{ command := trimStr (stripDollar ls), context := "example".toList }]
      else acc
    else acc) []

/-- Closing a section buffer in `parse_markdown`: the buffer is recorded
(joined by newlines and stripped) only when the current section name is a
non-empty string and the buffer holds at least one line. -/
def mdSaveSection (st : MDState) : MDState :=
  match st.currentSection with
  | some name =>
    if name ≠ [] ∧ st.buffer ≠ [] then
      { st with sections := dictInsert st.sections name (trimStr (joinSep ['\n'] st.buffer)) }
    else st
  | none => st

/-- One line of the `parse_markdown` loop, in source order: the title check
(first `# ` line, no continue), then the section-header regex (continue),
then the fence check (continue), then accumulation into the code buffer or
the current section buffer. -/
def mdStep (st : MDState) (line : Str) : MDState :=
  let st := if startsWithStr line "# ".toList ∧ st.title = [] then
    { st with title := trimStr (line.drop 2) } else st
  match mdSectionHeader line with
  | some name =>
    let st := mdSaveSection st
    { st with currentSection := some name, buffer := [] }
  | none =>
    if startsWithStr line "```".toList then
      if st.inCode then
        let code := joinSep ['\n'] st.codeBuffer
        let cmds := if st.codeLang ∈ ["bash".toList, "sh".toList, "shell".toList, ([] : Str)]
          then extractCommandsFromCode code else []
        { st with codeBlocks := st.codeBlocks ++ [{ language := st.codeLang, content := code }],
                  commands := st.commands ++ cmds,
                  inCode := false, codeBuffer := [], codeLang := [] }
      else { st with inCode := true, codeLang := trimStr (line.drop 3) }
    else if st.inCode then { st with codeBuffer := st.codeBuffer ++ [line] }
    else if st.currentSection.isSome then { st with buffer := st.buffer ++ [line] }
    else st

/-- `DocLearner.parse_markdown`: run the line loop, close the last section,
then fill the description from a section named `Description` or
`Introduction`, or else from the first 500 characters of the first
section's text. -/
def parseMarkdown (content source : Str) : MarkdownDoc :=
  let st := (splitOnChar '\n' content).foldl mdStep mdInit
  let st := mdSaveSection st
  let description :=
    match st.sections.find? (fun p => p.1 = "Description".toList) with
    | some p => p.2
    | none =>
      match st.sections.find? (fun p => p.1 = "Introduction".toList) with
      | some p => p.2
      | none =>
        match st.sections with
        | [] => []
        | p :: _ => p.2.take 500
  { source := source, title := st.title, description := description,
    sections := st.sections, commands := st.commands, codeBlocks := st.codeBlocks }

/-- Python `\w`: ASCII word characters (alphanumeric or underscore). -/
def isWordChar (c : Char) : Bool := c.isAlphanum || c = '_'

/-- Characters allowed in an option argument token (`[\w\[\]_-]`). -/
def isOptArgChar (c : Char) : Bool := isWordChar c || c = '[' || c = ']' || c = '-'

/-- The tail of the option regex after the flag:
`(?:\s+([\w\[\]_-]+))?\s*(.*)` — an optional whitespace-separated argument
token, then whitespace, then the rest of the line as description. -/
def optTail (rem : Str) : Str × Str :=
  let wsr := rem.takeWhile Char.isWhitespace
  let afterWs := rem.dropWhile Char.isWhitespace
  let argRun := afterWs.takeWhile isOptArgChar
  if wsr ≠ [] ∧ argRun ≠ [] then
    (argRun, (afterWs.drop argRun.length).dropWhile Char.isWhitespace)
  else ([], afterWs)

/-- The option regex of `_extract_options`:
`^\s+(-[\w\?]|--[\w\-]+)(?:\s+([\w\[\]_-]+))?\s*(.*)` applied with
`re.match`. Returns (flag, argument, description) on success. -/
def matchOptLine (line : Str) : Option (Str × Str × Str) :=
  let ws := line.takeWhile Char.isWhitespace
  let rest := line.dropWhile Char.isWhitespace
  if ws = [] then none
  else
    match rest with
    | '-' :: c :: rem =>
      if isWordChar c ∨ c = '?' then
        let (a, d) := optTail rem
        some (['-', c], a, d)
      else if c = '-' then
        let run := rem.takeWhile (fun d => isWordChar d || d = '-')
        if run = [] then none
        else
          let (a, d) := optTail (rem.drop run.length)
          some ('-' :: '-' :: run, a, d)
      else none
    | _ => none

/-- One line of the `_extract_options` loop: a matching option line closes
the previous option and opens a new one; a non-empty continuation line not
starting with a dash is appended to the current option's description. -/
def optStep (st : List OptRecord × Option OptRecord) (line : Str) :
    List OptRecord × Option OptRecord :=
  match matchOptLine line with
  | some (f, a, d) =>
    (st.1 ++ st.2.toList, some { flag := f, argument := a, description := d })
  | none =>
    match st.2 with
    | some cur =>
      if trimStr line ≠ [] ∧ ¬ (startsWithStr (trimStr line) "-".toList) then
        (st.1, some { cur with description := cur.description ++ " ".toList ++ trimStr line })
      else st
    | none => st

/-- `DocLearner._extract_options`: fold the option-line loop over the lines
of the OPTIONS text and flush the last open option. -/
def extractOptions (text : Str) : List OptRecord :=
  let st := (splitOnChar '\n' text).foldl optStep ([], none)
  st.1 ++ st.2.toList

/-- Maximal word-character runs, i.e. Python `re.findall(r'\w+', s)`. -/
def wordRuns : Str → List Str
  | [] => []
  | c :: rest =>
    if isWordChar c then
      (c :: rest.takeWhile isWordChar) :: wordRuns (rest.dropWhile isWordChar)
    else wordRuns rest
termination_by s => s.length
decreasing_by
all_goals simp
exact Nat.lt_succ_of_le (length_dropWhile_le _ _)

/-- Python `re.split(r'(?<=[.!?])\s+', content)`: split on maximal
whitespace runs that immediately follow a sentence-ending character. The
`prev` argument is the character preceding the current position. -/
def splitSentencesAux : Str → Str → Option Char → List Str
  | [], acc, _ => [acc.reverse]
  | c :: rest, acc, prev =>
    if c.isWhitespace ∧ (prev = some '.' ∨ prev = some '!' ∨ prev = some '?') then
      acc.reverse :: splitSentencesAux (rest.dropWhile Char.isWhitespace) [] (some ' ')
    else splitSentencesAux rest (c :: acc) (some c)
termination_by s _ _ => s.length
decreasing_by
all_goals simp
exact Nat.lt_succ_of_le (length_dropWhile_le _ _)

/-- Sentence splitting in `extract_relevant_snippet`. -/
def splitSentences (content : Str) : List Str := splitSentencesAux content [] none

/-- The sentence score of `extract_relevant_snippet`: the number of distinct
query terms occurring (case-insensitively) in the sentence. -/
def sentenceScore (queryTerms : List Str) (sentence : Str) : ℕ :=
  (queryTerms.filter (fun t => containsStr (lowerStr sentence) t)).length

/-- The expansion loop of `extract_relevant_snippet`: in each round try to
prepend the previous sentence, then to append the next sentence, each only
if the grown text still fits the character budget; stop when neither fits
or both sides are exhausted. -/
def growSnippet (sents : List Str) (maxChars : ℕ) (prevIdx : Int) (nextIdx : ℕ)
    (result : Str) : Str :=
  if hp : 0 ≤ prevIdx ∧ (sents.getD prevIdx.toNat [] ++ " ".toList ++ result).length ≤ maxChars then
    let r1 := sents.getD prevIdx.toNat [] ++ " ".toList ++ result
    if nextIdx < sents.length ∧ (r1 ++ " ".toList ++ sents.getD nextIdx []).length ≤ maxChars then
      growSnippet sents maxChars (prevIdx - 1) (nextIdx + 1) (r1 ++ " ".toList ++ sents.getD nextIdx [])
    else growSnippet sents maxChars (prevIdx - 1) nextIdx r1
  else
    if hn : nextIdx < sents.length ∧ (result ++ " ".toList ++ sents.getD nextIdx []).length ≤ maxChars then
      growSnippet sents maxChars prevIdx (nextIdx + 1) (result ++ " ".toList ++ sents.getD nextIdx [])
    else result
termination_by (prevIdx + 1).toNat + (sents.length - nextIdx)
decreasing_by
all_goals omega

/-- `extract_relevant_snippet(content, query, max_chars)`: content fitting
the budget is returned verbatim; otherwise the sentences are scored by
distinct query-term hits, sorted stably by descending score, and the best
sentence is grown by `growSnippet`; if the best score is zero the result
falls back to the first `max_chars` characters plus an ellipsis. -/
def extractRelevantSnippet (content query : Str) (maxChars : ℕ) : Str :=
  let queryTerms := dedupFirst (wordRuns (lowerStr query))
  if content.length ≤ maxChars then content
  else
    let sentences := splitSentences content
    let scored := sentences.enum.map (fun p => ((p.1, p.2), sentenceScore queryTerms p.2))
    match sortDesc scored with
    | [] => if maxChars < content.length then content.take maxChars ++ "...".toList else content
    | top :: _ =>
      if 0 < top.2 then
        growSnippet sentences maxChars ((top.1.1 : Int) - 1) (top.1.1 + 1)
          (sentences.getD top.1.1 [])
      else if maxChars < content.length then content.take maxChars ++ "...".toList else content

/-- One entry of the `sections` list grouped per source in
`synthesize_answer`. -/
structure UsedSection where
  sectionName : Option Str
  snippet : Str
  score : ℚ
deriving DecidableEq

/-- One entry of the `docs_used` grouping of `synthesize_answer`. -/
structure UsedDoc where
  title : Str
  sections : List UsedSection
deriving DecidableEq

/-- Append a section entry under a source key in `docs_used`, creating the
key (at the end, Python dict insertion order) when absent. -/
def addUsed (m : List (Str × UsedDoc)) (key : Str) (title : Str) (entry : UsedSection) :
    List (Str × UsedDoc) :=
  if m.any (fun p => p.1 = key) then
    m.map (fun p => if p.1 = key then (p.1, { p.2 with sections := p.2.sections ++ [entry] }) else p)
  else m ++ [(key, { title := title, sections := [entry] })]

/-- Python truthiness of an optional string (both `None` and `""` falsy). -/
def optTruthy (o : Option Str) : Bool := o.getD [] ≠ []

/-- The citation line group of one source in `synthesize_answer`. -/
def citationLines (p : Str × UsedDoc) : List Str :=
  let sourceDisplay := if containsStr p.1 "/".toList then
    (splitOnChar '/' p.1).getLastD [] else p.1
  ("• `".toList ++ p.2.title ++ "` (".toList ++ sourceDisplay ++ ")".toList) ::
  (p.2.sections.take 2).map (fun sec =>
    let secName := if optTruthy sec.sectionName then sec.sectionName.getD [] else "overview".toList
    "  - Section: *".toList ++ secName ++ "*".toList)

/-- One bullet of the Additional Details block of `synthesize_answer`. -/
def detailLines (query : Str) (p : IndexedDoc × ℚ) : List Str :=
  let content := extractRelevantSnippet p.1.content query 250
  if optTruthy p.1.sectionName ∧ p.1.sectionName.getD [] ≠ "Description".toList then
    ["• *".toList ++ p.1.sectionName.getD [] ++ ":* ".toList ++ content, []]
  else ["• ".toList ++ content, []]

/-- `synthesize_answer(query, results)`: the fixed no-results message for an
empty result list, otherwise the extractive answer built from the top
snippet, up to two further labelled snippets, and one citation block per
distinct source. -/
def synthesizeAnswer (query : Str) (results : List (IndexedDoc × ℚ)) : Str :=
  match results with
  | [] => "I couldn't find any relevant documentation for your question.".toList
  | top :: _ =>
    let docsUsed := results.foldl (fun m p =>
      addUsed m p.1.source p.1.title
        { sectionName := p.1.sectionName,
          snippet := extractRelevantSnippet p.1.content query 400, score := p.2 }) []
    let topContent := extractRelevantSnippet top.1.content query 600
    let answerLines := ["📚 **Answer:**".toList, [], topContent, []]
    let detailBlock := if 1 < results.length then
      ["📝 **Additional Details:**".toList, []] ++
        ((results.drop 1).take 2).flatMap (detailLines query)
      else []
    let citeBlock := ["📖 **Sources:**".toList, []] ++ docsUsed.flatMap citationLines
    joinSep ['\n'] (answerLines ++ detailBlock ++ citeBlock)

/-- Decimal digit characters of a natural number, most significant first:
the list produced by `Nat.toDigits 10`. -/
def decDigits (n : ℕ) : Str :=
  if h : n < 10 then [Nat.digitChar n]
  else decDigits (n / 10) ++ [Nat.digitChar (n % 10)]
termination_by n
decreasing_by
exact Nat.div_lt_self (by omega) (by omega)

theorem decDigits_of_lt {n : ℕ} (h : n < 10) : decDigits n = [Nat.digitChar n] := by
  rw [decDigits]
  simp [h]

theorem decDigits_of_ge {n : ℕ} (h : ¬ n < 10) :
    decDigits n = decDigits (n / 10) ++ [Nat.digitChar (n % 10)] := by
  rw [decDigits]
  simp [h]

theorem decDigits_ne_nil (n : ℕ) : decDigits n ≠ [] := by
  by_cases h : n < 10
  · rw [decDigits_of_lt h]
    simp
  · rw [decDigits_of_ge h]
    simp

theorem toDigitsCore_succ (b f n : ℕ) (ds : List Char) :
    Nat.toDigitsCore b (f + 1) n ds =
      if n / b = 0 then Nat.digitChar (n % b) :: ds
      else Nat.toDigitsCore b f (n / b) (Nat.digitChar (n % b) :: ds) := rfl

theorem toDigitsCore_eq_decDigits :
    ∀ (f n : ℕ) (acc : List Char), n ≤ f →
      Nat.toDigitsCore 10 (f + 1) n acc = decDigits n ++ acc := by
  intro f
  induction f with
  | zero =>
    intro n acc hn
    interval_cases n
    simp [toDigitsCore_succ, decDigits_of_lt]
  | succ f ih =>
    intro n acc hn
    by_cases hdiv : n / 10 = 0
    · have hlt : n < 10 := by omega
      rw [toDigitsCore_succ, if_pos hdiv, decDigits_of_lt hlt, Nat.mod_eq_of_lt hlt]
      simp
    · have hge : ¬ n < 10 := by
        intro hc
        exact hdiv (Nat.div_eq_of_lt hc)
      rw [toDigitsCore_succ, if_neg hdiv]
      have hle : n / 10 ≤ f := by
        have h1 : n / 10 < n := Nat.div_lt_self (by omega) (by omega)
        omega
      rw [ih (n / 10) (Nat.digitChar (n % 10) :: acc) hle, decDigits_of_ge hge]
      simp

theorem repr_data_eq_decDigits (n : ℕ) : (Nat.repr n).toList = decDigits n := by
  show (Nat.toDigits 10 n).asString.toList = decDigits n
  have h := toDigitsCore_eq_decDigits n n [] (le_refl n)
  simp only [Nat.toDigits, h, List.append_nil]
  rfl

theorem digitChar_inj_lt : ∀ a < 10, ∀ b < 10, Nat.digitChar a = Nat.digitChar b → a = b := by
  decide

theorem decDigits_len_pos (n : ℕ) : 0 < (decDigits n).length := by
  cases h : decDigits n with
  | nil => exact absurd h (decDigits_ne_nil n)
  | cons a l => simp

theorem decDigits_inj : ∀ m n : ℕ, decDigits m = decDigits n → m = n := by
  intro m
  induction m using Nat.strong_induction_on with
  | _ m ih =>
    intro n h
    by_cases hm : m < 10 <;> by_cases hn : n < 10
    · rw [decDigits_of_lt hm, decDigits_of_lt hn] at h
      exact digitChar_inj_lt m hm n hn (List.singleton_injective h)
    · rw [decDigits_of_lt hm, decDigits_of_ge hn] at h
      have hlen := congrArg List.length h
      have hpos := decDigits_len_pos (n / 10)
      simp only [List.length_append, List.length_cons, List.length_nil] at hlen
      omega
    · rw [decDigits_of_ge hm, decDigits_of_lt hn] at h
      have hlen := congrArg List.length h
      have hpos := decDigits_len_pos (m / 10)
      simp only [List.length_append, List.length_cons, List.length_nil] at hlen
      omega
    · rw [decDigits_of_ge hm, decDigits_of_ge hn] at h
      rw [← List.concat_eq_append, ← List.concat_eq_append, List.concat_inj] at h
      have h1 : m / 10 = n / 10 :=
        ih (m / 10) (Nat.div_lt_self (by omega) (by omega)) (n / 10) h.1
      have h2 : m % 10 = n % 10 :=
        digitChar_inj_lt (m % 10) (Nat.mod_lt m (by omega)) (n % 10) (Nat.mod_lt n (by omega)) h.2
      omega

theorem reprStr_inj {m n : ℕ} (h : (Nat.repr m).toList = (Nat.repr n).toList) : m = n := by
  apply decDigits_inj
  rw [← repr_data_eq_decDigits, ← repr_data_eq_decDigits]
  exact h

/-- The order produced by a stable descending sort of index-tagged entries:
strictly larger key first, and ties resolved by the original insertion
index. -/
def rankedBefore {β K : Type} [LinearOrder K] (a b : (ℕ × β) × K) : Prop :=
  b.2 < a.2 ∨ (a.2 = b.2 ∧ a.1.1 < b.1.1)
theorem insertDesc_perm {α K : Type} [LinearOrder K] (x : α × K) (l : List (α × K)) :
    List.Perm (insertDesc x l) (x :: l) := by
  induction l with
  | nil => exact List.Perm.refl _
  | cons y ys ih =>
    by_cases h : y.2 ≤ x.2
    · simp only [insertDesc, if_pos h]
      exact List.Perm.refl _
    · simp only [insertDesc, if_neg h]
      exact List.Perm.trans (ih.cons y) (List.Perm.swap x y ys)

theorem sortDesc_perm {α K : Type} [LinearOrder K] (l : List (α × K)) :
    List.Perm (sortDesc l) l := by
  induction l with
  | nil => exact List.Perm.refl _
  | cons x xs ih =>
    exact List.Perm.trans (insertDesc_perm x (sortDesc xs)) (ih.cons x)

theorem pairwise_insertDesc {β K : Type} [LinearOrder K] (x : (ℕ × β) × K)
    (l : List ((ℕ × β) × K)) (hl : l.Pairwise rankedBefore)
    (hidx : ∀ y ∈ l, x.1.1 < y.1.1) :
    (insertDesc x l).Pairwise rankedBefore := by
  induction l with
  | nil => simp [insertDesc]
  | cons y ys ih =>
    rcases List.pairwise_cons.mp hl with ⟨hy, hys⟩
    by_cases h : y.2 ≤ x.2
    · simp only [insertDesc, if_pos h]
      refine List.pairwise_cons.mpr ⟨?_, hl⟩
      intro z hz
      rcases List.mem_cons.mp hz with rfl | hzys
      · rcases eq_or_lt_of_le h with heq | hlt
        · exact Or.inr ⟨heq.symm, hidx z (List.mem_cons_self z ys)⟩
        · exact Or.inl hlt
      · have hzy : z.2 ≤ y.2 := by
          rcases hy z hzys with hlt | ⟨heq, _⟩
          · exact le_of_lt hlt
          · exact le_of_eq heq.symm
        rcases eq_or_lt_of_le (le_trans hzy h) with heq | hlt
        · exact Or.inr ⟨heq.symm, hidx z (List.mem_cons_of_mem y hzys)⟩
        · exact Or.inl hlt
    · simp only [insertDesc, if_neg h]
      refine List.pairwise_cons.mpr
        ⟨?_, ih hys (fun z hz => hidx z (List.mem_cons_of_mem y hz))⟩
      intro w hw
      have hw2 := (insertDesc_perm x ys).mem_iff.mp hw
      rcases List.mem_cons.mp hw2 with rfl | hwys
      · exact Or.inl (lt_of_not_le h)
      · exact hy w hwys

theorem pairwise_sortDesc {β K : Type} [LinearOrder K] (l : List ((ℕ × β) × K))
    (hl : l.Pairwise (fun a b => a.1.1 < b.1.1)) :
    (sortDesc l).Pairwise rankedBefore := by
  induction l with
  | nil => simp [sortDesc]
  | cons x xs ih =>
    rcases List.pairwise_cons.mp hl with ⟨hx, hxs⟩
    exact pairwise_insertDesc x (sortDesc xs) (ih hxs)
      (fun y hy => hx y ((sortDesc_perm xs).mem_iff.mp hy))

theorem pairwise_enumFrom {α : Type} (l : List α) :
    ∀ n : ℕ, (List.enumFrom n l).Pairwise (fun a b => a.1 < b.1) := by
  induction l with
  | nil => intro n; simp
  | cons x xs ih =>
    intro n
    refine List.pairwise_cons.mpr ⟨?_, ih (n + 1)⟩
    intro y hy
    have := List.mem_enumFrom (show (y.1, y.2) ∈ List.enumFrom (n + 1) xs by simpa using hy)
    omega

theorem pairwise_enum {α : Type} (l : List α) :
    l.enum.Pairwise (fun a b => a.1 < b.1) := pairwise_enumFrom l 0

theorem loadAll_acc (files : List PersistedFile) :
    ∀ acc : List IndexedDoc,
      files.foldl (fun acc f => acc ++ fileUnits f) acc =
      acc ++ files.flatMap fileUnits := by
  induction files with
  | nil => intro acc; simp
  | cons f fs ih =>
    intro acc
    simp [List.foldl, ih]

theorem find_map_dictInsert {β : Type} (st : List (Str × β)) (k : Str) (v : β)
    (hany : st.any (fun p => p.1 = k)) :
    (st.map (fun p => if p.1 = k then (k, v) else p)).find? (fun p => p.1 = k) = some (k, v) := by
  induction st with
  | nil => simp at hany
  | cons p rest ih =>
    by_cases h : p.1 = k
    · rw [List.map_cons, if_pos h, List.find?_cons_of_pos _ (by simp)]
    · have hrest : rest.any (fun p => p.1 = k) := by
        rw [List.any_cons] at hany
        rcases Bool.or_eq_true_iff.mp hany with hc | hc
        · exact absurd (of_decide_eq_true hc) h
        · exact hc
      rw [List.map_cons, if_neg h, List.find?_cons_of_neg _ (by simpa using h)]
      exact ih hrest

theorem find_dictInsert {β : Type} (st : List (Str × β)) (k : Str) (v : β) :
    (dictInsert st k v).find? (fun p => p.1 = k) = some (k, v) := by
  unfold dictInsert
  by_cases hany : st.any (fun p => p.1 = k)
  · rw [if_pos hany]
    exact find_map_dictInsert st k v hany
  · rw [if_neg hany]
    rw [List.find?_append]
    have hnone : st.find? (fun p => p.1 = k) = none := by
      rw [List.find?_eq_none]
      intro x hx
      simp only [List.any_eq_true] at hany
      intro hc
      exact hany ⟨x, hx, by simpa using hc⟩
    rw [hnone]
    simp [List.find?]

/-- C5: searching a corpus of zero indexed units returns zero results for
every query and every top_k (no exception is possible in the model, which
is total), and synthesizing an answer from an empty result list returns the
fixed no-relevant-documentation message. -/
theorem empty_corpus_search_and_synthesize (log sqrt : ℚ → ℚ) (query : Str) (topK : ℕ) :
    search log sqrt [] query topK = [] ∧
    synthesizeAnswer query [] =
      "I couldn't find any relevant documentation for your question.".toList := by
  constructor
  · simp [search, searchRanked, searchScores, sortDesc]
  · rfl

/-- C7: storing a parsed record and then showing it by its stored name
returns the record itself; in particular the sections mapping (names, texts
and insertion order) is exactly the one produced during parsing. -/
theorem store_show_roundtrip (st : List (Str × DocRecord)) (d : DocRecord) :
    showDoc (storeDoc st d) d.name = some d ∧
    (showDoc (storeDoc st d) d.name).map DocRecord.sections = some d.sections := by
  have h : showDoc (storeDoc st d) d.name = some d := by
    unfold showDoc storeDoc
    rw [find_dictInsert st d.name d]
  exact ⟨h, by rw [h]; rfl⟩

/-- The readable fields of a persisted record whose `sections` entry is
not a mapping (say null): the description parses, and the loader raises
when it iterates the sections — after the description unit was already
added, so its load is `PersistedFile.malformed nullSectionsRecord 1`. -/
def nullSectionsRecord : DocRecord :=
  { name := "doc".toList, title := "T".toList, source := "s".toList,
    description := "dd".toList, sections := [], codeBlocks := [] }

/-- C9 counterexample: a record that parses as JSON but fails while its
sections are iterated is not skipped — the description unit added before
the exception stays in the index, so a single malformed record does
change the built corpus. -/
theorem malformed_record_leaves_units_counterexample :
    loadAll [PersistedFile.malformed nullSectionsRecord 1] =
      [descUnit nullSectionsRecord] ∧
    loadAll [PersistedFile.malformed nullSectionsRecord 1] ≠ loadAll [] := by
  constructor
  · rfl
  · intro hc
    simp [loadAll, fileUnits, nullSectionsRecord, unitsOfRecord] at hc

/-- C9 amended: loading never aborts on a malformed record and every
well-formed record is still fully decomposed and indexed — but a
malformed record is not always skipped entirely: it contributes exactly
the prefix of its units that the loader added before its exception was
caught. The corpus is the per-file concatenation, each well-formed
record's units appear in full wherever it sits, and a malformed record
contributes precisely its pre-exception prefix. -/
theorem malformed_records_isolated :
    (∀ files : List PersistedFile, loadAll files = files.flatMap fileUnits) ∧
    (∀ (pre post : List PersistedFile) (r : DocRecord),
      loadAll (pre ++ PersistedFile.good r :: post) =
        loadAll pre ++ unitsOfRecord r ++ loadAll post) ∧
    (∀ (pre post : List PersistedFile) (r : DocRecord) (n : ℕ),
      loadAll (pre ++ PersistedFile.malformed r n :: post) =
        loadAll pre ++ (unitsOfRecord r).take n ++ loadAll post) := by
  have hflat : ∀ files : List PersistedFile, loadAll files = files.flatMap fileUnits := by
    intro files
    simpa using loadAll_acc files []
  refine ⟨hflat, ?_, ?_⟩
  · intro pre post r
    rw [hflat, hflat, hflat, List.flatMap_append, List.flatMap_cons]
    simp [fileUnits, List.append_assoc]
  · intro pre post r n
    rw [hflat, hflat, hflat, List.flatMap_append, List.flatMap_cons]
    simp [fileUnits, List.append_assoc]

theorem searchScores_score_ge (log sqrt : ℚ → ℚ) (docs : List IndexedDoc) (query : Str) :
    ∀ q ∈ searchScores log sqrt docs query, minSimilarity ≤ q.2 := by
  intro q hq
  unfold searchScores at hq
  rcases List.mem_filterMap.mp hq with ⟨p, _, hfp⟩
  by_cases hcond : minSimilarity ≤ scoreDoc sqrt
      (vectorize log docs (computeTF (tokenize query))) (lowerStr query)
      ((splitWs (lowerStr query)).filter (fun t => t ∉ stopWords)) p.2 (docVector log docs p.2)
  · simp only [if_pos hcond, Option.some_inj] at hfp
    rw [← hfp]
    exact hcond
  · simp only [if_neg hcond] at hfp
    exact absurd hfp (by simp)

theorem searchScores_pairwise_idx (log sqrt : ℚ → ℚ) (docs : List IndexedDoc) (query : Str) :
    (searchScores log sqrt docs query).Pairwise (fun a b => a.1.1 < b.1.1) := by
  unfold searchScores
  rw [List.pairwise_filterMap]
  refine (pairwise_enum docs).imp ?_
  intro a b hab c hc d hd
  have hc1 : c.1.1 = a.1 := by
    by_cases h : minSimilarity ≤ scoreDoc sqrt
        (vectorize log docs (computeTF (tokenize query))) (lowerStr query)
        ((splitWs (lowerStr query)).filter (fun t => t ∉ stopWords)) a.2 (docVector log docs a.2)
    · simp only [if_pos h, Option.mem_def, Option.some_inj] at hc
      rw [← hc]
    · simp only [if_neg h] at hc
      exact absurd hc (by simp)
  have hd1 : d.1.1 = b.1 := by
    by_cases h : minSimilarity ≤ scoreDoc sqrt
        (vectorize log docs (computeTF (tokenize query))) (lowerStr query)
        ((splitWs (lowerStr query)).filter (fun t => t ∉ stopWords)) b.2 (docVector log docs b.2)
    · simp only [if_pos h, Option.mem_def, Option.some_inj] at hd
      rw [← hd]
    · simp only [if_neg h] at hd
      exact absurd hd (by simp)
  rw [hc1, hd1]
  exact hab

/-- C1: for every built corpus index, every query string, and every
top_k ≥ 0, `search` returns at most top_k results; every returned pair has
final score at least MIN_SIMILARITY = 0.05; and the ranked list is sorted
in descending score order with equal scores kept in original insertion
order (the `rankedBefore` relation on the index-tagged ranking, of which
the returned list is the projection). -/
theorem search_topk_threshold_sorted (log sqrt : ℚ → ℚ) (docs : List IndexedDoc)
    (query : Str) (topK : ℕ) :
    (search log sqrt docs query topK).length ≤ topK ∧
    (∀ p ∈ search log sqrt docs query topK, minSimilarity ≤ p.2) ∧
    (searchRanked log sqrt docs query topK).Pairwise rankedBefore ∧
    search log sqrt docs query topK =
      (searchRanked log sqrt docs query topK).map (fun p => (p.1.2, p.2)) := by
  refine ⟨?_, ?_, ?_, rfl⟩
  · unfold search searchRanked
    rw [List.length_map, List.length_take]
    exact min_le_left _ _
  · intro p hp
    unfold search at hp
    rcases List.mem_map.mp hp with ⟨q, hq, hpq⟩
    have hq2 : q ∈ sortDesc (searchScores log sqrt docs query) :=
      (List.take_sublist _ _).subset hq
    have hq3 : q ∈ searchScores log sqrt docs query :=
      (sortDesc_perm _).mem_iff.mp hq2
    have := searchScores_score_ge log sqrt docs query q hq3
    rw [← hpq]
    exact this
  · unfold searchRanked
    exact (pairwise_sortDesc _ (searchScores_pairwise_idx log sqrt docs query)).sublist
      (List.take_sublist _ _)

/-- A sample one-token indexed unit used by concrete witnesses. -/
def sampleDoc : IndexedDoc :=
  { id := [], title := [], content := "hello".toList, source := [],
    sectionName := none, metadata := [], tokens := ["hello".toList] }

/-- C2: for a corpus of N ≥ 1 units, every IDF table entry equals
ln(N / (df + 1)) + 1 where df is the number of units containing the term;
the formula is monotonically non-increasing in df; and it is strictly
positive for every term whose df is strictly below N. The assumptions on
`log` (monotone on positives, log 1 = 0) hold for the real logarithm. -/
theorem idf_formula_monotone_positive (log : ℚ → ℚ) (docs : List IndexedDoc)
    (hN : 1 ≤ docs.length)
    (hmono : ∀ x y : ℚ, 0 < x → x ≤ y → log x ≤ log y)
    (hone : log 1 = 0) :
    (∀ t w, (t, w) ∈ idfTable log docs →
      w = log ((docs.length : ℚ) / ((docFreq docs t : ℚ) + 1)) + 1) ∧
    (∀ df1 df2 : ℕ, df1 ≤ df2 →
      idfValue log (nDocs docs) df2 ≤ idfValue log (nDocs docs) df1) ∧
    (∀ t w, (t, w) ∈ idfTable log docs → docFreq docs t < docs.length → 0 < w) := by
  have hnd : nDocs docs = docs.length := by
    unfold nDocs
    rw [if_neg (by omega)]
  refine ⟨?_, ?_, ?_⟩
  · intro t w hw
    unfold idfTable at hw
    rcases List.mem_map.mp hw with ⟨u, _, hu⟩
    have ht : u = t := congrArg Prod.fst hu
    have hv : idfValue log (nDocs docs) (docFreq docs u) = w := congrArg Prod.snd hu
    rw [← hv, ht, idfValue, hnd]
  · intro df1 df2 hle
    unfold idfValue
    have hpos2 : (0 : ℚ) < (nDocs docs : ℚ) / ((df2 : ℚ) + 1) := by
      apply div_pos
      · rw [hnd]
        exact_mod_cast lt_of_lt_of_le one_pos hN
      · positivity
    have harg : (nDocs docs : ℚ) / ((df2 : ℚ) + 1) ≤ (nDocs docs : ℚ) / ((df1 : ℚ) + 1) := by
      apply div_le_div_of_nonneg_left _ (by positivity) (by exact_mod_cast by omega)
      rw [hnd]
      positivity
    have := hmono _ _ hpos2 harg
    linarith
  · intro t w hw hdf
    unfold idfTable at hw
    rcases List.mem_map.mp hw with ⟨u, _, hu⟩
    have ht : u = t := congrArg Prod.fst hu
    have hv : idfValue log (nDocs docs) (docFreq docs u) = w := congrArg Prod.snd hu
    have harg : (1 : ℚ) ≤ (nDocs docs : ℚ) / ((docFreq docs t : ℚ) + 1) := by
      rw [one_le_div (by positivity), hnd]
      have : docFreq docs t + 1 ≤ docs.length := by omega
      exact_mod_cast this
    have hlog : 0 ≤ log ((nDocs docs : ℚ) / ((docFreq docs t : ℚ) + 1)) := by
      rw [← hone]
      exact hmono 1 _ one_pos harg
    rw [← hv, ht, idfValue]
    linarith

/-- C2 witness: the theorem instantiated at the corpus consisting of the
single unit `sampleDoc` and at the monotone function x ↦ x − 1, which
satisfies both logarithm assumptions. -/
theorem idf_formula_monotone_positive_witness :
    (∀ t w, (t, w) ∈ idfTable (fun x => x - 1) [sampleDoc] →
      w = (fun x : ℚ => x - 1) ((([sampleDoc] : List IndexedDoc).length : ℚ) /
        ((docFreq [sampleDoc] t : ℚ) + 1)) + 1) ∧
    (∀ df1 df2 : ℕ, df1 ≤ df2 →
      idfValue (fun x => x - 1) (nDocs [sampleDoc]) df2 ≤
        idfValue (fun x => x - 1) (nDocs [sampleDoc]) df1) ∧
    (∀ t w, (t, w) ∈ idfTable (fun x => x - 1) [sampleDoc] →
      docFreq [sampleDoc] t < ([sampleDoc] : List IndexedDoc).length → 0 < w) :=
  idf_formula_monotone_positive (fun x => x - 1) [sampleDoc]
    (by simp)
    (fun x y _ hxy => by simpa using hxy)
    (by norm_num)

/-- The markdown source of the ingestion scenario: a `# Widget` title, a
`## Description` section reading "Widget is a tool for X", and a fenced
bash block containing the single line `widget --init`. -/
def widgetSource : Str :=
  "# Widget\n\n## Description\n\nWidget is a tool for X\n\n```bash\nwidget --init\n```".toList

/-- C3 counterexample: parsing the scenario source does NOT produce exactly
one command record with text "widget --init" — `widget --init` starts with
none of the recognised command prefixes, so no command is extracted. -/
theorem widget_markdown_counterexample :
    (parseMarkdown widgetSource "widget.md".toList).commands.map CmdRecord.command ≠
      ["widget --init".toList] := by decide

/-- C3 amended: parsing the scenario source yields title "Widget",
description "Widget is a tool for X", the single bash code block
`widget --init` — and zero extracted command records, because a command
line must start with a recognised prefix (shell prompt, interpreter, or
package-manager/VCS keyword) and `widget` is not one. -/
theorem widget_markdown_amended :
    (parseMarkdown widgetSource "widget.md".toList).title = "Widget".toList ∧
    (parseMarkdown widgetSource "widget.md".toList).description =
      "Widget is a tool for X".toList ∧
    (parseMarkdown widgetSource "widget.md".toList).codeBlocks =
      [{ language := "bash".toList, content := "widget --init".toList }] ∧
    (parseMarkdown widgetSource "widget.md".toList).commands = [] := by decide

/-- C6: the OPTIONS line `  -v, --verbose   Enable verbose output` yields
exactly one option record whose flag is "-v" (the short-flag alternative of
the option regex matches first, and `, --verbose   Enable verbose output`
becomes the description); and, for every OPTIONS text, a non-empty
continuation line that is not itself an option line and does not start with
a dash is appended (after a space) to the open flag's description — the
loop step is total, so multi-line descriptions can never fail. -/
theorem options_flag_and_continuation :
    (extractOptions "  -v, --verbose   Enable verbose output".toList =
      [{ flag := "-v".toList, argument := [],
         description := ", --verbose   Enable verbose output".toList }]) ∧
    (∀ (done : List OptRecord) (cur : OptRecord) (line : Str),
      matchOptLine line = none → trimStr line ≠ [] →
      ¬ (startsWithStr (trimStr line) "-".toList = true) →
      optStep (done, some cur) line =
        (done, some { cur with
          description := cur.description ++ " ".toList ++ trimStr line })) := by
  constructor
  · decide
  · intro done cur line hmatch hne hdash
    unfold optStep
    rw [hmatch]
    show (if trimStr line ≠ [] ∧ ¬ (startsWithStr (trimStr line) "-".toList = true)
      then _ else _) = _
    rw [if_pos ⟨hne, hdash⟩]

/-- C6 witness: the continuation step applied at a concrete state — a
pending `-v` option absorbs the indented line `      and more detail`. -/
theorem options_flag_and_continuation_witness :
    optStep ([], some ⟨"-v".toList, [], "Enable verbose output".toList⟩)
      "      and more detail".toList =
    ([], some ⟨"-v".toList, [],
      "Enable verbose output".toList ++ " ".toList ++ "and more detail".toList⟩) :=
  options_flag_and_continuation.2 []
    ⟨"-v".toList, [], "Enable verbose output".toList⟩
    "      and more detail".toList (by decide) (by decide) (by decide)

theorem startsWithStr_append (p rest : Str) : startsWithStr (p ++ rest) p = true := by
  induction p with
  | nil => cases rest <;> rfl
  | cons c cs ih => simp [startsWithStr, ih]

theorem colon_prefix_inj : ∀ (n1 n2 : Str), ':' ∉ n1 → ':' ∉ n2 → ∀ (s1 s2 : Str),
    n1 ++ ':' :: s1 = n2 ++ ':' :: s2 → n1 = n2 ∧ s1 = s2 := by
  intro n1
  induction n1 with
  | nil =>
    intro n2 _ h2 s1 s2 h
    cases n2 with
    | nil => simpa using h
    | cons d n2 =>
      simp only [List.nil_append, List.cons_append, List.cons.injEq] at h
      exact absurd (h.1 ▸ List.mem_cons_self d n2) h2
  | cons c n1 ih =>
    intro n2 h1 h2 s1 s2 h
    cases n2 with
    | nil =>
      simp only [List.cons_append, List.nil_append, List.cons.injEq] at h
      exact absurd (h.1 ▸ List.mem_cons_self c n1) h1
    | cons d n2 =>
      simp only [List.cons_append, List.cons.injEq] at h
      have := ih n2 (fun hc => h1 (List.mem_cons_of_mem c hc))
        (fun hc => h2 (List.mem_cons_of_mem d hc)) s1 s2 h.2
      exact ⟨by rw [h.1, this.1], this.2⟩

theorem nodup_flatMap_of {α β : Type} [DecidableEq β] (l : List α) (f : α → List β)
    (h1 : ∀ a ∈ l, (f a).Nodup)
    (h2 : l.Pairwise (fun a b => ∀ x ∈ f a, ∀ y ∈ f b, x ≠ y)) :
    (l.flatMap f).Nodup := by
  induction l with
  | nil => simp
  | cons a as ih =>
    rw [List.flatMap_cons, List.nodup_append]
    rcases List.pairwise_cons.mp h2 with ⟨ha, h2t⟩
    refine ⟨h1 a (List.mem_cons_self a as), ih (fun b hb => h1 b (List.mem_cons_of_mem a hb)) h2t, ?_⟩
    intro x hx hx2
    rcases List.mem_flatMap.mp hx2 with ⟨b, hb, hxb⟩
    exact ha b hb x hx x hxb rfl

theorem mem_ite_some {α : Type} {c : Prop} [Decidable c] {a u : α}
    (h : u ∈ (if c then some a else none)) : u = a ∧ c := by
  by_cases hc : c
  · rw [if_pos hc] at h
    exact ⟨(Option.some_inj.mp (Option.mem_def.mp h)).symm, hc⟩
  · rw [if_neg hc] at h
    cases h

theorem descUnit_id (r : DocRecord) :
    (descUnit r).id = r.name ++ ':' :: "description".toList := rfl

theorem secUnit_id (r : DocRecord) (p : Str × Str) :
    (secUnit r p).id = r.name ++ ':' :: p.1 := by
  show r.name ++ ":".toList ++ p.1 = r.name ++ ':' :: p.1
  rw [List.append_assoc]
  rfl

theorem codeUnit_id (r : DocRecord) (q : ℕ × CodeBlock) :
    (codeUnit r q).id = r.name ++ ':' :: ("code:".toList ++ (Nat.repr q.1).toList) := by
  show r.name ++ ":code:".toList ++ (Nat.repr q.1).toList =
    r.name ++ ':' :: ("code:".toList ++ (Nat.repr q.1).toList)
  rw [List.append_assoc]
  rfl

/-- Every unit a record contributes has an identifier of the form
`name ++ ":" ++ suffix`, where the suffix is `description`, the section
name, or `code:` followed by the decimal code-block index. -/
theorem unitsOfRecord_id_mem (r : DocRecord) (u : IndexedDoc) (hu : u ∈ unitsOfRecord r) :
    (u.id = r.name ++ ':' :: "description".toList) ∨
    (∃ p ∈ r.sections, u.id = r.name ++ ':' :: p.1) ∨
    (∃ q ∈ r.codeBlocks.enum,
      u.id = r.name ++ ':' :: ("code:".toList ++ (Nat.repr q.1).toList)) := by
  unfold unitsOfRecord at hu
  rcases List.mem_append.mp hu with hAB | hC
  · rcases List.mem_append.mp hAB with hA | hB
    · left
      by_cases hd : r.description ≠ []
      · rw [if_pos hd] at hA
        rw [List.mem_singleton.mp hA]
        rfl
      · rw [if_neg hd] at hA
        cases hA
    · right; left
      rcases List.mem_filterMap.mp hB with ⟨p, hp, hfp⟩
      rcases mem_ite_some (Option.mem_def.mpr hfp) with ⟨rfl, _⟩
      exact ⟨p, hp, secUnit_id r p⟩
  · right; right
    rcases List.mem_filterMap.mp hC with ⟨q, hq, hfq⟩
    rcases mem_ite_some (Option.mem_def.mpr hfq) with ⟨rfl, _⟩
    exact ⟨q, hq, codeUnit_id r q⟩

theorem unitsOfRecord_ids_nodup (r : DocRecord)
    (hsec : (r.sections.map Prod.fst).Nodup)
    (hsd : ∀ p ∈ r.sections, p.1 ≠ "description".toList ∧
      ¬ (startsWithStr p.1 "code:".toList = true)) :
    ((unitsOfRecord r).map IndexedDoc.id).Nodup := by
  have hsecP : r.sections.Pairwise (fun p q => p.1 ≠ q.1) := List.pairwise_map.mp hsec
  unfold unitsOfRecord
  rw [List.map_append, List.map_append, List.nodup_append, List.nodup_append]
  refine ⟨⟨?_, ?_, ?_⟩, ?_, ?_⟩
  · by_cases hd : r.description ≠ [] <;> simp [hd]
  · rw [List.Nodup, List.pairwise_map, List.pairwise_filterMap]
    refine hsecP.imp ?_
    intro p q hpq u hu v hv
    rcases mem_ite_some hu with ⟨rfl, _⟩
    rcases mem_ite_some hv with ⟨rfl, _⟩
    rw [secUnit_id, secUnit_id]
    intro h
    exact hpq (List.cons.inj (List.append_cancel_left h)).2
  · intro x hxA hxB
    rcases List.mem_map.mp hxA with ⟨u, huA, hux⟩
    rcases List.mem_map.mp hxB with ⟨v, hvB, hvx⟩
    by_cases hd : r.description ≠ []
    · rw [if_pos hd] at huA
      have hu : u = descUnit r := List.mem_singleton.mp huA
      rcases List.mem_filterMap.mp hvB with ⟨p, hp, hfp⟩
      rcases mem_ite_some (Option.mem_def.mpr hfp) with ⟨hv, _⟩
      have heq : (descUnit r).id = (secUnit r p).id := by rw [← hu, ← hv, hux, hvx]
      rw [descUnit_id, secUnit_id] at heq
      exact (hsd p hp).1 (List.cons.inj (List.append_cancel_left heq)).2.symm
    · rw [if_neg hd] at huA
      cases huA
  · rw [List.Nodup, List.pairwise_map, List.pairwise_filterMap]
    refine (pairwise_enum r.codeBlocks).imp ?_
    intro q1 q2 hlt u hu v hv
    rcases mem_ite_some hu with ⟨rfl, _⟩
    rcases mem_ite_some hv with ⟨rfl, _⟩
    rw [codeUnit_id, codeUnit_id]
    intro h
    have h2 := List.append_cancel_left
      (List.cons.inj (List.append_cancel_left h)).2
    exact absurd (reprStr_inj h2) (by omega)
  · intro x hxAB hxC
    rcases List.mem_map.mp hxC with ⟨v, hvC, hvx⟩
    rcases List.mem_filterMap.mp hvC with ⟨q, hq, hfq⟩
    rcases mem_ite_some (Option.mem_def.mpr hfq) with ⟨hv, _⟩
    rcases List.mem_append.mp hxAB with hxA | hxB
    · rcases List.mem_map.mp hxA with ⟨u, huA, hux⟩
      by_cases hd : r.description ≠ []
      · rw [if_pos hd] at huA
        have hu : u = descUnit r := List.mem_singleton.mp huA
        have heq : (descUnit r).id = (codeUnit r q).id := by rw [← hu, ← hv, hux, hvx]
        rw [descUnit_id, codeUnit_id] at heq
        have h2 := (List.cons.inj (List.append_cancel_left heq)).2
        have hsw : startsWithStr ("description".toList) ("code:".toList) = true := by
          rw [h2]
          exact startsWithStr_append _ _
        exact absurd hsw (by decide)
      · rw [if_neg hd] at huA
        cases huA
    · rcases List.mem_map.mp hxB with ⟨u, huB, hux⟩
      rcases List.mem_filterMap.mp huB with ⟨p, hp, hfp⟩
      rcases mem_ite_some (Option.mem_def.mpr hfp) with ⟨hu, _⟩
      have heq : (secUnit r p).id = (codeUnit r q).id := by rw [← hu, ← hv, hux, hvx]
      rw [secUnit_id, codeUnit_id] at heq
      have h2 := (List.cons.inj (List.append_cancel_left heq)).2
      have hsw : startsWithStr p.1 ("code:".toList) = true := by
        rw [h2]
        exact startsWithStr_append _ _
      exact absurd hsw (hsd p hp).2

/-- A persisted record carrying a section literally named "description": its
description unit and that section's unit get the same identifier. -/
def dupRecord : DocRecord :=
  { name := "doc".toList, title := "T".toList, source := "s".toList,
    description := "dd".toList,
    sections := [("description".toList, "ss".toList)], codeBlocks := [] }

/-- C8 counterexample: loading `dupRecord` produces two indexable units
that both carry the identifier `doc:description`, so the identifiers of
one index build are not pairwise distinct. -/
theorem unit_ids_not_distinct_counterexample :
    ¬ ((loadAll [PersistedFile.good dupRecord]).map IndexedDoc.id).Nodup := by decide

/-- C8 amended: the identifiers of all units of one index build are
pairwise distinct provided the loaded records have pairwise distinct,
colon-free names, each record's section names are distinct, and no section
is literally named "description" or starts with "code:" (otherwise a
section unit can collide with the description unit or a code-block unit,
as the counterexample shows). -/
theorem unit_ids_distinct_amended (records : List DocRecord)
    (hnames : (records.map DocRecord.name).Nodup)
    (hnc : ∀ r ∈ records, ':' ∉ r.name)
    (hsec : ∀ r ∈ records, (r.sections.map Prod.fst).Nodup)
    (hsd : ∀ r ∈ records, ∀ p ∈ r.sections, p.1 ≠ "description".toList ∧
      ¬ (startsWithStr p.1 "code:".toList = true)) :
    ((loadAll (records.map PersistedFile.good)).map IndexedDoc.id).Nodup := by
  have h1 : loadAll (records.map PersistedFile.good) = records.flatMap unitsOfRecord := by
    unfold loadAll
    rw [loadAll_acc (records.map PersistedFile.good) []]
    simp [List.flatMap_map, fileUnits]
  rw [h1, List.map_flatMap]
  apply nodup_flatMap_of
  · intro r hr
    exact unitsOfRecord_ids_nodup r (hsec r hr) (hsd r hr)
  · have hnP : records.Pairwise (fun r1 r2 => r1.name ≠ r2.name) :=
      List.pairwise_map.mp hnames
    refine List.Pairwise.imp_of_mem ?_ hnP
    intro r1 r2 hr1 hr2 hne x hx y hy
    rcases List.mem_map.mp hx with ⟨u, hu, hux⟩
    rcases List.mem_map.mp hy with ⟨v, hv, hvy⟩
    have hu2 := unitsOfRecord_id_mem r1 u hu
    have hv2 := unitsOfRecord_id_mem r2 v hv
    have hus : ∃ s1, x = r1.name ++ ':' :: s1 := by
      rcases hu2 with h | ⟨p, _, h⟩ | ⟨q, _, h⟩ <;> exact ⟨_, by rw [← hux, h]⟩
    have hvs : ∃ s2, y = r2.name ++ ':' :: s2 := by
      rcases hv2 with h | ⟨p, _, h⟩ | ⟨q, _, h⟩ <;> exact ⟨_, by rw [← hvy, h]⟩
    rcases hus with ⟨s1, rfl⟩
    rcases hvs with ⟨s2, rfl⟩
    intro hxy
    exact hne (colon_prefix_inj r1.name r2.name (hnc r1 hr1) (hnc r2 hr2) s1 s2 hxy).1

/-- A well-formed persisted record satisfying the amended hypotheses. -/
def goodRecord : DocRecord :=
  { name := "doc".toList, title := "T".toList, source := "s".toList,
    description := "dd".toList,
    sections := [("Usage".toList, "uu".toList)],
    codeBlocks := [{ language := "bash".toList, content := "bb".toList }] }

/-- C8 amended witness: the amended theorem applied to the one-record
corpus `[goodRecord]`, whose name list, section names and code blocks
satisfy every hypothesis. -/
theorem unit_ids_distinct_amended_witness :
    ((loadAll ([goodRecord].map PersistedFile.good)).map IndexedDoc.id).Nodup :=
  unit_ids_distinct_amended [goodRecord] (by decide) (by decide) (by decide) (by decide)

theorem mem_dedupFirst : ∀ (l : List Str) (x : Str), x ∈ dedupFirst l ↔ x ∈ l
  | [], x => by simp [dedupFirst]
  | a :: as, x => by
    rw [dedupFirst]
    constructor
    · intro hm
      rcases List.mem_cons.mp hm with rfl | hm2
      · exact List.mem_cons_self _ _
      · have := (mem_dedupFirst (as.filter (fun y => y ≠ a)) x).mp hm2
        exact List.mem_cons_of_mem a (List.mem_of_mem_filter this)
    · intro hm
      rcases List.mem_cons.mp hm with rfl | hm2
      · exact List.mem_cons_self _ _
      · by_cases hxa : x = a
        · rw [hxa]
          exact List.mem_cons_self _ _
        · have hf : x ∈ as.filter (fun y => y ≠ a) :=
            List.mem_filter.mpr ⟨hm2, by simpa using hxa⟩
          exact List.mem_cons_of_mem a
            ((mem_dedupFirst (as.filter (fun y => y ≠ a)) x).mpr hf)
termination_by l _ => l.length
decreasing_by
all_goals exact Nat.lt_succ_of_le (List.length_filter_le _ _)

theorem nodup_dedupFirst : ∀ (l : List Str), (dedupFirst l).Nodup
  | [] => by simp [dedupFirst]
  | a :: as => by
    rw [dedupFirst]
    refine List.nodup_cons.mpr ⟨?_, nodup_dedupFirst (as.filter (fun y => y ≠ a))⟩
    intro hmem
    have := List.of_mem_filter ((mem_dedupFirst _ a).mp hmem)
    simp at this
termination_by l => l.length
decreasing_by
exact Nat.lt_succ_of_le (List.length_filter_le _ _)

theorem lookupD_cases (l : List (Str × ℚ)) (k : Str) (d : ℚ) :
    lookupD l k d = d ∨ ∃ p ∈ l, p.1 = k ∧ p.2 = lookupD l k d := by
  induction l with
  | nil => left; rfl
  | cons q rest ih =>
    by_cases h : q.1 = k
    · right
      exact ⟨q, List.mem_cons_self q rest, h, by rw [lookupD, if_pos h]⟩
    · rw [lookupD, if_neg h]
      rcases ih with hd | ⟨p, hp, hpk, hpv⟩
      · left; exact hd
      · right; exact ⟨p, List.mem_cons_of_mem q hp, hpk, hpv⟩

theorem lookupD_nonneg (l : List (Str × ℚ)) (k : Str)
    (h : ∀ t w, (t, w) ∈ l → 0 ≤ w) : 0 ≤ lookupD l k 0 := by
  rcases lookupD_cases l k 0 with hd | ⟨p, hp, _, hpv⟩
  · rw [hd]
  · rw [← hpv]
    exact h p.1 p.2 hp

theorem allTerms_docFreq (docs : List IndexedDoc) (t : Str) (ht : t ∈ allTerms docs) :
    1 ≤ docFreq docs t ∧ docFreq docs t ≤ docs.length := by
  constructor
  · have ht2 := (mem_dedupFirst _ t).mp ht
    rcases List.mem_flatMap.mp ht2 with ⟨d, hd, htd⟩
    have htd2 : t ∈ d.tokens := (mem_dedupFirst _ t).mp htd
    have : d ∈ docs.filter (fun d => t ∈ d.tokens) :=
      List.mem_filter.mpr ⟨hd, by simpa using htd2⟩
    have := List.length_pos.mpr (List.ne_nil_of_mem this)
    unfold docFreq
    omega
  · exact List.length_filter_le _ _

/-- Every IDF table value is strictly positive: for a table term, the
document frequency df satisfies 1 ≤ df ≤ N, so N/(df+1) ≥ N/(N+1) > 1/e
and ln(N/(df+1)) + 1 > 0. Uses the strict bound ln x > 1 − 1/x (x ≠ 1). -/
theorem idfTable_pos (log : ℚ → ℚ) (docs : List IndexedDoc)
    (hone : log 1 = 0)
    (hlb : ∀ x : ℚ, 0 < x → x ≠ 1 → 1 - 1/x < log x) :
    ∀ t w, (t, w) ∈ idfTable log docs → 0 < w := by
  intro t w hw
  unfold idfTable at hw
  rcases List.mem_map.mp hw with ⟨u, hu, huw⟩
  have ht : u = t := congrArg Prod.fst huw
  have hv : idfValue log (nDocs docs) (docFreq docs u) = w := congrArg Prod.snd huw
  rw [ht] at hu hv
  rcases allTerms_docFreq docs t hu with ⟨hdf1, hdf2⟩
  have hlen : 1 ≤ docs.length := le_trans hdf1 hdf2
  have hnd : nDocs docs = docs.length := by
    unfold nDocs
    rw [if_neg (by omega)]
  set n : ℕ := docs.length with hn
  set df : ℕ := docFreq docs t with hdf
  have hx : (0 : ℚ) < (n : ℚ) / ((df : ℚ) + 1) := by
    apply div_pos
    · exact_mod_cast hlen
    · positivity
  rw [← hv, idfValue, hnd]
  by_cases hx1 : (n : ℚ) / ((df : ℚ) + 1) = 1
  · rw [hx1, hone]
    norm_num
  · have hgt := hlb _ hx hx1
    have hinv : 1 / ((n : ℚ) / ((df : ℚ) + 1)) = ((df : ℚ) + 1) / (n : ℚ) := by
      rw [one_div_div]
    have hb : ((df : ℚ) + 1) / (n : ℚ) ≤ 2 := by
      rw [div_le_iff (by exact_mod_cast hlen)]
      have : (df : ℚ) + 1 ≤ (n : ℚ) + 1 := by
        have : df ≤ n := hdf2
        exact_mod_cast by omega
      have h2n : (n : ℚ) + 1 ≤ 2 * (n : ℚ) := by
        have : (1 : ℚ) ≤ (n : ℚ) := by exact_mod_cast hlen
        linarith
      linarith
    rw [hinv] at hgt
    linarith

theorem computeTF_nonneg (tokens : List Str) :
    ∀ t w, (t, w) ∈ computeTF tokens → 0 ≤ w := by
  intro t w hw
  unfold computeTF at hw
  rcases List.mem_map.mp hw with ⟨u, _, huw⟩
  have hv := congrArg Prod.snd huw
  simp only at hv
  rw [← hv]
  apply div_nonneg
  · positivity
  · by_cases h : tokens.length = 0 <;> simp [h] <;> positivity

theorem lookupD_pos_of (l : List (Str × ℚ)) (k : Str)
    (h : ∀ t w, (t, w) ∈ l → 0 < w) : 0 < lookupD l k 1 := by
  rcases lookupD_cases l k 1 with hd | ⟨p, hp, _, hpv⟩
  · rw [hd]
    norm_num
  · rw [← hpv]
    exact h p.1 p.2 hp

theorem vectorize_nonneg (log : ℚ → ℚ) (docs : List IndexedDoc)
    (hpos : ∀ t w, (t, w) ∈ idfTable log docs → 0 < w)
    (tf : List (Str × ℚ)) (htf : ∀ t w, (t, w) ∈ tf → 0 ≤ w) :
    ∀ t w, (t, w) ∈ vectorize log docs tf → 0 ≤ w := by
  intro t w hw
  unfold vectorize at hw
  rcases List.mem_map.mp hw with ⟨p, hp, hpw⟩
  have hv := congrArg Prod.snd hpw
  simp only at hv
  rw [← hv]
  apply mul_nonneg
  · exact htf p.1 p.2 hp
  · exact le_of_lt (lookupD_pos_of _ _ hpos)

theorem dotOver_sq_le (keys : List Str) (hkeys : keys.Nodup)
    (v1 v2 : List (Str × ℚ)) :
    (dotOver keys v1 v2) ^ 2 ≤ dotOver keys v1 v1 * dotOver keys v2 v2 := by
  have h12 : dotOver keys v1 v2 =
      ∑ t ∈ keys.toFinset, lookupD v1 t 0 * lookupD v2 t 0 :=
    (List.sum_toFinset _ hkeys).symm
  have h11 : dotOver keys v1 v1 = ∑ t ∈ keys.toFinset, (lookupD v1 t 0) ^ 2 :=
    ((List.sum_toFinset (fun t => lookupD v1 t 0 * lookupD v1 t 0) hkeys).symm).trans
      (Finset.sum_congr rfl (fun t _ => (pow_two _).symm))
  have h22 : dotOver keys v2 v2 = ∑ t ∈ keys.toFinset, (lookupD v2 t 0) ^ 2 :=
    ((List.sum_toFinset (fun t => lookupD v2 t 0 * lookupD v2 t 0) hkeys).symm).trans
      (Finset.sum_congr rfl (fun t _ => (pow_two _).symm))
  rw [h12, h11, h22]
  exact Finset.sum_mul_sq_le_sq_mul_sq keys.toFinset _ _

theorem dotOver_nonneg (keys : List Str) (v1 v2 : List (Str × ℚ))
    (h1 : ∀ t w, (t, w) ∈ v1 → 0 ≤ w) (h2 : ∀ t w, (t, w) ∈ v2 → 0 ≤ w) :
    0 ≤ dotOver keys v1 v2 := by
  apply List.sum_nonneg
  intro x hx
  rcases List.mem_map.mp hx with ⟨t, _, rfl⟩
  exact mul_nonneg (lookupD_nonneg v1 t h1) (lookupD_nonneg v2 t h2)

theorem dotOver_self_nonneg (keys : List Str) (v : List (Str × ℚ)) :
    0 ≤ dotOver keys v v := by
  apply List.sum_nonneg
  intro x hx
  rcases List.mem_map.mp hx with ⟨t, _, rfl⟩
  exact mul_self_nonneg _

theorem cosineSim_mem_unit (sqrt : ℚ → ℚ) (v1 v2 : List (Str × ℚ))
    (h1 : ∀ t w, (t, w) ∈ v1 → 0 ≤ w) (h2 : ∀ t w, (t, w) ∈ v2 → 0 ≤ w)
    (hs1 : 0 ≤ sqrt (dotOver (unionKeys v1 v2) v1 v1) ∧
      sqrt (dotOver (unionKeys v1 v2) v1 v1) * sqrt (dotOver (unionKeys v1 v2) v1 v1) =
        dotOver (unionKeys v1 v2) v1 v1)
    (hs2 : 0 ≤ sqrt (dotOver (unionKeys v1 v2) v2 v2) ∧
      sqrt (dotOver (unionKeys v1 v2) v2 v2) * sqrt (dotOver (unionKeys v1 v2) v2 v2) =
        dotOver (unionKeys v1 v2) v2 v2) :
    0 ≤ cosineSim sqrt v1 v2 ∧ cosineSim sqrt v1 v2 ≤ 1 := by
  have hform : cosineSim sqrt v1 v2 =
      if dotOver (unionKeys v1 v2) v1 v1 = 0 ∨ dotOver (unionKeys v1 v2) v2 v2 = 0 then 0
      else dotOver (unionKeys v1 v2) v1 v2 /
        (sqrt (dotOver (unionKeys v1 v2) v1 v1) * sqrt (dotOver (unionKeys v1 v2) v2 v2)) := rfl
  rw [hform]
  by_cases hz : dotOver (unionKeys v1 v2) v1 v1 = 0 ∨ dotOver (unionKeys v1 v2) v2 v2 = 0
  · rw [if_pos hz]
    norm_num
  · rw [if_neg hz]
    push_neg at hz
    set keys := unionKeys v1 v2 with hk
    set s1 := sqrt (dotOver keys v1 v1) with hsd1
    set s2 := sqrt (dotOver keys v2 v2) with hsd2
    have hn1 : 0 < dotOver keys v1 v1 := lt_of_le_of_ne (dotOver_self_nonneg keys v1) (Ne.symm hz.1)
    have hn2 : 0 < dotOver keys v2 v2 := lt_of_le_of_ne (dotOver_self_nonneg keys v2) (Ne.symm hz.2)
    have hs1p : 0 < s1 := by
      rcases eq_or_lt_of_le hs1.1 with heq | hlt
      · exact absurd (by rw [← hs1.2, ← heq]; ring) (ne_of_gt hn1)
      · exact hlt
    have hs2p : 0 < s2 := by
      rcases eq_or_lt_of_le hs2.1 with heq | hlt
      · exact absurd (by rw [← hs2.2, ← heq]; ring) (ne_of_gt hn2)
      · exact hlt
    have hdot : 0 ≤ dotOver keys v1 v2 := dotOver_nonneg keys v1 v2 h1 h2
    have hnodup : keys.Nodup := nodup_dedupFirst _
    have hcs := dotOver_sq_le keys hnodup v1 v2
    have hupper : dotOver keys v1 v2 ≤ s1 * s2 := by
      nlinarith [hs1.2, hs2.2, mul_pos hs1p hs2p]
    constructor
    · exact div_nonneg hdot (le_of_lt (mul_pos hs1p hs2p))
    · rw [div_le_one (mul_pos hs1p hs2p)]
      exact hupper

/-- The query vector of `SemanticSearcher.search`: term frequencies of the
tokenized query, weighted by the existing IDF table (out-of-vocabulary
terms carry weight 1.0). -/
def queryVec (log : ℚ → ℚ) (docs : List IndexedDoc) (query : Str) : List (Str × ℚ) :=
  vectorize log docs (computeTF (tokenize query))

/-- C10: in every built index with N ≥ 1 units, every IDF weight is
strictly positive (also for a term occurring in all N units, since
ln(N/(N+1)) + 1 > 0), every component of the query vector and of every
unit's TF-IDF vector is non-negative, and the raw cosine similarity before
boosts — including the 0.0 returned on a zero norm — lies in [0, 1]. The
hypotheses on `log` (ln 1 = 0 and the strict bound ln x > 1 − 1/x for
x ≠ 1) and on `sqrt` (non-negative and squaring back to its argument, at
the two relevant norms) hold for the real logarithm and square root. -/
theorem tfidf_nonneg_cosine_unit_interval (log sqrt : ℚ → ℚ)
    (docs : List IndexedDoc) (query : Str) (d : IndexedDoc)
    (hN : 1 ≤ docs.length)
    (hone : log 1 = 0)
    (hlb : ∀ x : ℚ, 0 < x → x ≠ 1 → 1 - 1/x < log x)
    (hs1 : 0 ≤ sqrt (dotOver (unionKeys (queryVec log docs query) (docVector log docs d))
        (queryVec log docs query) (queryVec log docs query)) ∧
      sqrt (dotOver (unionKeys (queryVec log docs query) (docVector log docs d))
          (queryVec log docs query) (queryVec log docs query)) *
        sqrt (dotOver (unionKeys (queryVec log docs query) (docVector log docs d))
          (queryVec log docs query) (queryVec log docs query)) =
        dotOver (unionKeys (queryVec log docs query) (docVector log docs d))
          (queryVec log docs query) (queryVec log docs query))
    (hs2 : 0 ≤ sqrt (dotOver (unionKeys (queryVec log docs query) (docVector log docs d))
        (docVector log docs d) (docVector log docs d)) ∧
      sqrt (dotOver (unionKeys (queryVec log docs query) (docVector log docs d))
          (docVector log docs d) (docVector log docs d)) *
        sqrt (dotOver (unionKeys (queryVec log docs query) (docVector log docs d))
          (docVector log docs d) (docVector log docs d)) =
        dotOver (unionKeys (queryVec log docs query) (docVector log docs d))
          (docVector log docs d) (docVector log docs d)) :
    (∀ t w, (t, w) ∈ idfTable log docs → 0 < w) ∧
    (∀ t w, (t, w) ∈ queryVec log docs query → 0 ≤ w) ∧
    (∀ d2 t w, (t, w) ∈ docVector log docs d2 → 0 ≤ w) ∧
    0 ≤ cosineSim sqrt (queryVec log docs query) (docVector log docs d) ∧
    cosineSim sqrt (queryVec log docs query) (docVector log docs d) ≤ 1 := by
  have hpos := idfTable_pos log docs hone hlb
  have hq : ∀ t w, (t, w) ∈ queryVec log docs query → 0 ≤ w :=
    vectorize_nonneg log docs hpos _ (computeTF_nonneg _)
  have hdv : ∀ d2 t w, (t, w) ∈ docVector log docs d2 → 0 ≤ w :=
    fun d2 => vectorize_nonneg log docs hpos _ (computeTF_nonneg _)
  have hcos := cosineSim_mem_unit sqrt (queryVec log docs query) (docVector log docs d)
    hq (hdv d) hs1 hs2
  exact ⟨hpos, hq, hdv, hcos.1, hcos.2⟩

/-- A unit with no tokens, used for the degenerate-norm witness. -/
def blankDoc : IndexedDoc :=
  { id := [], title := [], content := [], source := [],
    sectionName := none, metadata := [], tokens := [] }

theorem blank_norm_zero :
    dotOver (unionKeys (queryVec (fun x => x - 1) [blankDoc] [])
        (docVector (fun x => x - 1) [blankDoc] blankDoc))
      (queryVec (fun x => x - 1) [blankDoc] [])
      (queryVec (fun x => x - 1) [blankDoc] []) = 0 ∧
    dotOver (unionKeys (queryVec (fun x => x - 1) [blankDoc] [])
        (docVector (fun x => x - 1) [blankDoc] blankDoc))
      (docVector (fun x => x - 1) [blankDoc] blankDoc)
      (docVector (fun x => x - 1) [blankDoc] blankDoc) = 0 := by
  have hq : queryVec (fun x : ℚ => x - 1) [blankDoc] [] = [] := by
    simp [queryVec, vectorize, computeTF, tokenize, lowerStr, splitWs, dedupFirst]
  have hdv : docVector (fun x : ℚ => x - 1) [blankDoc] blankDoc = [] := by
    simp [docVector, vectorize, computeTF, blankDoc, dedupFirst]
  rw [hq, hdv]
  constructor <;> simp [dotOver, unionKeys, dedupFirst]

/-- C10 witness: the theorem applied to the one-unit corpus `[blankDoc]`,
the empty query, log x = x − 1 and the constant-zero square root, whose
hypotheses hold since both norms are zero. -/
theorem tfidf_nonneg_cosine_unit_interval_witness :
    (∀ t w, (t, w) ∈ idfTable (fun x => x - 1) [blankDoc] → 0 < w) ∧
    (∀ t w, (t, w) ∈ queryVec (fun x => x - 1) [blankDoc] [] → 0 ≤ w) ∧
    (∀ d2 t w, (t, w) ∈ docVector (fun x => x - 1) [blankDoc] d2 → 0 ≤ w) ∧
    0 ≤ cosineSim (fun _ => 0) (queryVec (fun x => x - 1) [blankDoc] [])
      (docVector (fun x => x - 1) [blankDoc] blankDoc) ∧
    cosineSim (fun _ => 0) (queryVec (fun x => x - 1) [blankDoc] [])
      (docVector (fun x => x - 1) [blankDoc] blankDoc) ≤ 1 := by
  have hlb : ∀ x : ℚ, 0 < x → x ≠ 1 → 1 - 1/x < (fun x : ℚ => x - 1) x := by
    intro x hx hne
    simp only
    have h0 : x - 1 ≠ 0 := sub_ne_zero.mpr hne
    have h2 : 0 < (x - 1) ^ 2 := lt_of_le_of_ne (sq_nonneg _) (Ne.symm (pow_ne_zero 2 h0))
    have hxne : x ≠ 0 := ne_of_gt hx
    have key : (1 - 1/x) * x = x - 1 := by
      field_simp
    by_contra hcon
    push_neg at hcon
    have hmul := mul_le_mul_of_nonneg_right hcon (le_of_lt hx)
    rw [key] at hmul
    nlinarith [h2, hmul]
  exact tfidf_nonneg_cosine_unit_interval (fun x => x - 1) (fun _ => 0) [blankDoc] [] blankDoc
    (by decide) (by norm_num) hlb
    (by rw [blank_norm_zero.1]; norm_num)
    (by rw [blank_norm_zero.2]; norm_num)

theorem splitSentencesAux_ne_nil : ∀ (s acc : Str) (prev : Option Char),
    splitSentencesAux s acc prev ≠ []
  | [], acc, prev => by
    rw [splitSentencesAux]
    simp
  | c :: rest, acc, prev => by
    rw [splitSentencesAux]
    split
    · simp
    · exact splitSentencesAux_ne_nil rest (c :: acc) (some c)
termination_by s _ _ => s.length
decreasing_by
exact Nat.lt_succ_of_le (le_refl _)

theorem splitSentences_ne_nil (content : Str) : splitSentences content ≠ [] :=
  splitSentencesAux_ne_nil content [] none

theorem le_foldr_max : ∀ (l : List ℕ) (x : ℕ), x ∈ l → x ≤ l.foldr max 0 := by
  intro l
  induction l with
  | nil => intro x hx; cases hx
  | cons a as ih =>
    intro x hx
    rcases List.mem_cons.mp hx with rfl | hx2
    · exact le_max_left _ _
    · exact le_trans (ih x hx2) (le_max_right _ _)

theorem foldr_max_le (l : List ℕ) (m : ℕ) (h : ∀ x ∈ l, x ≤ m) : l.foldr max 0 ≤ m := by
  induction l with
  | nil => simp
  | cons a as ih =>
    simp only [List.foldr_cons]
    exact max_le (h a (List.mem_cons_self a as)) (ih (fun x hx => h x (List.mem_cons_of_mem a hx)))

theorem sortDesc_head_spec {β : Type} (L : List ((ℕ × β) × ℕ)) (hne : L ≠ [])
    (hidx : L.Pairwise (fun a b => a.1.1 < b.1.1)) :
    ∃ h t, sortDesc L = h :: t ∧ h ∈ L ∧ ∀ y ∈ L, y = h ∨ rankedBefore h y := by
  cases hs : sortDesc L with
  | nil =>
    have hperm := sortDesc_perm L
    rw [hs] at hperm
    exact absurd hperm.nil_eq.symm hne
  | cons h t =>
    have hperm := sortDesc_perm L
    rw [hs] at hperm
    have hpair := pairwise_sortDesc L hidx
    rw [hs] at hpair
    refine ⟨h, t, rfl, hperm.mem_iff.mp (List.mem_cons_self h t), ?_⟩
    intro y hy
    have hy2 : y ∈ h :: t := hperm.mem_iff.mpr hy
    rcases List.mem_cons.mp hy2 with rfl | hyt
    · exact Or.inl rfl
    · exact Or.inr ((List.pairwise_cons.mp hpair).1 y hyt)

/-- The distinct query terms used by the snippet extractor
(`set(re.findall(r'\w+', query.lower()))`). -/
def snippetQueryTerms (query : Str) : List Str := dedupFirst (wordRuns (lowerStr query))

/-- The per-sentence scores of `extract_relevant_snippet`, in sentence
order. -/
def snippetScores (query content : Str) : List ℕ :=
  (splitSentences content).map (sentenceScore (snippetQueryTerms query))

/-- The index of the highest-scoring sentence, first such sentence on
ties: the position of the first occurrence of the maximal score. -/
def snippetBest (query content : Str) : ℕ :=
  (snippetScores query content).findIdx
    (fun v => v == (snippetScores query content).foldr max 0)

theorem extractRelevantSnippet_eq (content query : Str) (maxChars : ℕ) :
    extractRelevantSnippet content query maxChars =
    (if content.length ≤ maxChars then content
    else
      match sortDesc ((splitSentences content).enum.map
          (fun p => ((p.1, p.2), sentenceScore (snippetQueryTerms query) p.2))) with
      | [] => if maxChars < content.length then content.take maxChars ++ "...".toList
              else content
      | top :: _ =>
        if 0 < top.2 then
          growSnippet (splitSentences content) maxChars ((top.1.1 : Int) - 1) (top.1.1 + 1)
            ((splitSentences content).getD top.1.1 [])
        else if maxChars < content.length then content.take maxChars ++ "...".toList
        else content) := rfl

/-- C4: snippet extraction returns content that fits the budget verbatim;
otherwise, when some sentence contains a query term (the maximal sentence
score is positive), the result is the expansion loop started from the
first highest-scoring sentence (alternately prepending the previous and
appending the next sentence while the text fits the budget); and when no
sentence scores, the result is the first max_chars characters of the
content followed by the "..." truncation marker. -/
theorem snippet_extraction_spec (content query : Str) (maxChars : ℕ) :
    (content.length ≤ maxChars → extractRelevantSnippet content query maxChars = content) ∧
    (maxChars < content.length → 0 < (snippetScores query content).foldr max 0 →
      extractRelevantSnippet content query maxChars =
        growSnippet (splitSentences content) maxChars
          ((snippetBest query content : Int) - 1) (snippetBest query content + 1)
          ((splitSentences content).getD (snippetBest query content) [])) ∧
    (maxChars < content.length → (snippetScores query content).foldr max 0 = 0 →
      extractRelevantSnippet content query maxChars =
        content.take maxChars ++ "...".toList) := by
  have hLidx : ((splitSentences content).enum.map
      (fun p => ((p.1, p.2), sentenceScore (snippetQueryTerms query) p.2))).Pairwise
      (fun a b => a.1.1 < b.1.1) := by
    rw [List.pairwise_map]
    exact (pairwise_enum (splitSentences content)).imp (fun hab => hab)
  have hLne : ((splitSentences content).enum.map
      (fun p => ((p.1, p.2), sentenceScore (snippetQueryTerms query) p.2))) ≠ [] := by
    intro hc
    have hlen := congrArg List.length hc
    simp only [List.length_map, List.enum_length, List.length_nil] at hlen
    exact splitSentences_ne_nil content (List.length_eq_zero.mp hlen)
  obtain ⟨h, t, hsort, hmem, hall⟩ := sortDesc_head_spec _ hLne hLidx
  obtain ⟨pq, hpq, hfh⟩ := List.mem_map.mp hmem
  obtain ⟨i0, s0⟩ := pq
  have hidx0 : h.1.1 = i0 := by rw [← hfh]
  have hsc : h.2 = sentenceScore (snippetQueryTerms query) s0 := by rw [← hfh]
  have hienum := List.mem_enum hpq
  have hi0len : i0 < (splitSentences content).length := hienum.1
  have hs0 : s0 = (splitSentences content)[i0] := hienum.2
  have hslen : (snippetScores query content).length = (splitSentences content).length := by
    rw [snippetScores, List.length_map]
  have hyL : ∀ j (hj : j < (splitSentences content).length),
      ((j, (splitSentences content)[j]),
        sentenceScore (snippetQueryTerms query) (splitSentences content)[j]) ∈
        ((splitSentences content).enum.map
          (fun p => ((p.1, p.2), sentenceScore (snippetQueryTerms query) p.2))) := by
    intro j hj
    apply List.mem_map.mpr
    refine ⟨(j, (splitSentences content)[j]), ?_, rfl⟩
    have hj2 : j < (splitSentences content).enum.length := by
      rw [List.enum_length]
      exact hj
    have hg := List.getElem_enum (splitSentences content) j hj2
    rw [← hg]
    exact List.getElem_mem hj2
  have hscore_at : ∀ j (hj : j < (splitSentences content).length)
      (hj2 : j < (snippetScores query content).length),
      (snippetScores query content)[j] =
        sentenceScore (snippetQueryTerms query) (splitSentences content)[j] := by
    intro j hj hj2
    simp [snippetScores]
  have hle_max : h.2 ≤ (snippetScores query content).foldr max 0 := by
    apply le_foldr_max
    rw [hsc, hs0]
    apply List.mem_map.mpr
    exact ⟨(splitSentences content)[i0], List.getElem_mem hi0len, rfl⟩
  have hmax_le : (snippetScores query content).foldr max 0 ≤ h.2 := by
    apply foldr_max_le
    intro x hx
    obtain ⟨j, hj, hxj⟩ := List.mem_iff_getElem.mp hx
    have hjs : j < (splitSentences content).length := by
      rw [hslen] at hj
      exact hj
    have hy := hall _ (hyL j hjs)
    have hxval : x = sentenceScore (snippetQueryTerms query) (splitSentences content)[j] := by
      rw [← hxj]
      exact hscore_at j hjs hj
    rcases hy with heq | hrb
    · have := congrArg Prod.snd heq
      simp only at this
      rw [hxval, this]
    · rcases hrb with hlt | ⟨heq2, _⟩
      · rw [hxval]
        exact le_of_lt hlt
      · rw [hxval]
        exact le_of_eq heq2.symm
  have hm : h.2 = (snippetScores query content).foldr max 0 :=
    le_antisymm hle_max hmax_le
  have hib : i0 < (snippetScores query content).length := by
    rw [hslen]
    exact hi0len
  have hb : snippetBest query content = i0 := by
    rw [snippetBest]
    apply (List.findIdx_eq hib).mpr
    constructor
    · have hv : (snippetScores query content)[i0] =
          sentenceScore (snippetQueryTerms query) (splitSentences content)[i0] :=
        hscore_at i0 hi0len hib
      rw [hv, ← hs0, ← hsc, hm]
      exact beq_self_eq_true _
    · intro j hji0
      have hjs : j < (splitSentences content).length := by
        omega
      have hy := hall _ (hyL j hjs)
      rcases hy with heq | hrb
      · have := congrArg (fun z => z.1.1) heq
        simp only at this
        rw [hidx0] at this
        omega
      · rcases hrb with hlt | ⟨_, hgt2⟩
        · have hjsc : j < (snippetScores query content).length := by
            rw [hslen]
            exact hjs
          have hv : (snippetScores query content)[j] =
              sentenceScore (snippetQueryTerms query) (splitSentences content)[j] :=
            hscore_at j hjs hjsc
          rw [hm] at hlt
          simp only [hv]
          exact beq_eq_false_iff_ne.mpr (Nat.ne_of_lt hlt)
        · rw [hidx0] at hgt2
          simp only at hgt2
          omega
  refine ⟨?_, ?_, ?_⟩
  · intro hle
    rw [extractRelevantSnippet_eq, if_pos hle]
  · intro hgt hmpos
    rw [extractRelevantSnippet_eq, if_neg (not_le.mpr hgt), hsort]
    show (if 0 < h.2 then growSnippet (splitSentences content) maxChars
        ((h.1.1 : Int) - 1) (h.1.1 + 1) ((splitSentences content).getD h.1.1 [])
      else if maxChars < content.length then content.take maxChars ++ "...".toList
      else content) = _
    rw [if_pos (by rw [hm]; exact hmpos), hidx0, hb]
  · intro hgt hmzero
    rw [extractRelevantSnippet_eq, if_neg (not_le.mpr hgt), hsort]
    show (if 0 < h.2 then growSnippet (splitSentences content) maxChars
        ((h.1.1 : Int) - 1) (h.1.1 + 1) ((splitSentences content).getD h.1.1 [])
      else if maxChars < content.length then content.take maxChars ++ "...".toList
      else content) = _
    rw [if_neg (by rw [hm, hmzero]; omega), if_pos hgt]

/-- C4 witness: the verbatim branch of the snippet-extraction theorem at a
concrete content that fits its character budget. -/
theorem snippet_extraction_spec_witness :
    "hi there".toList.length ≤ 20 ∧
    extractRelevantSnippet "hi there".toList "query".toList 20 = "hi there".toList :=
  ⟨by decide,
    (snippet_extraction_spec "hi there".toList "query".toList 20).1 (by decide)⟩
